import Mathlib

/-!
Shallow embedding of the DSP core of the Unified-Media-Converter repository
(`src/src/unified_media_converter.py`): the biquad band response model, the
linear-phase FIR designer, and the overlap-add streaming convolution engine,
together with proofs settling the frozen claims about them.

Machine floats of the source are modelled by exact arithmetic: sample data and
FIR coefficients as rationals in the streaming engine, transcendental filter
mathematics over the reals and complexes.  The exact-arithmetic semantics of
`np.fft.irfft(np.fft.rfft(x, N) * np.fft.rfft(h, N), N)` is the length-`N`
cyclic convolution of the zero-padded inputs, and is embedded as such.
-/

namespace UMC

/-! ## The streaming convolution engine (computable, exact rationals)

Models `overlap_add_convolve_wav` (source lines 270-313) together with the
`next_pow2` helper.  numpy's two-dimensional broadcasting rules for
`out_block = Y[:m, :] + overlap[:m, :]` are modelled exactly: row counts must
match, or one operand must have exactly one row (which is then stretched,
possibly to zero rows); anything else is a `ValueError`.
`np.clip(v, -32767, 32767).astype(np.int16)` clamps and then truncates toward
zero. -/

/-- Header and payload of the input WAV file as the `wave` module presents it:
channel count, frame rate, sample width in bytes, and the decoded frames
(one inner list of `nch` samples per frame). -/
structure WavIn where
  nch : ℕ
  sr : ℕ
  sw : ℕ
  frames : List (List ℤ)
deriving DecidableEq

/-- The two failure modes of the engine: the explicit
`RuntimeError('Only 16-bit PCM supported ...')` guard, and the numpy
broadcast `ValueError` that `Y[:m, :] + overlap[:m, :]` raises on
incompatible row counts. -/
inductive ConvErr where
  | sampleWidth : ConvErr
  | broadcastErr : ConvErr
deriving DecidableEq

/-- Everything the engine emits on a successful run: the output frames written
with `writeframes` (block outputs then the flushed tail), and the sequence of
progress percentages put on the UI queue. -/
structure ConvResult where
  outFrames : List (List ℤ)
  progress : List ℚ
deriving DecidableEq

/-- Loop state of one convolution session: the carried overlap tail
(`Lh - 1` rows), the processed frame counter, and the output/progress
accumulated so far. -/
structure ConvState where
  overlap : List (List ℚ)
  processed : ℕ
  outFrames : List (List ℤ)
  progress : List ℚ

/-- Python `int.bit_length`, defined with structural fuel so that the kernel
can evaluate it (`bitLenAux fuel y` is `y.bit_length()` whenever `y ≤ fuel`). -/
def bitLenAux : ℕ → ℕ → ℕ
  | 0, _ => 0
  | fuel + 1, y => if y = 0 then 0 else bitLenAux fuel (y / 2) + 1

/-- Python `y.bit_length()`. -/
def bitLen (y : ℕ) : ℕ := bitLenAux y y

/-- Source helper `next_pow2(x) = 1 << (x - 1).bit_length()` (its uses all
have `x ≥ 1`, where Python's and ℕ's `x - 1` agree). -/
def next_pow2 (x : ℕ) : ℕ := 2 ^ bitLen (x - 1)

/-- Truncation toward zero, the semantics of `numpy.astype` from float to a
signed integer type (for values representable in the target type). -/
def ratTrunc (q : ℚ) : ℤ := if q < 0 then ⌈q⌉ else ⌊q⌋

/-- Semantics of `np.clip(v, -32767, 32767).astype(np.int16)` on one exact sample value. -/
def clampTrunc (q : ℚ) : ℤ := ratTrunc (max (-32767) (min 32767 q))

/-- Element `t` of the length-`Nn` cyclic convolution of `x` and `h`, both
zero-padded to length `Nn`: the exact-arithmetic value of
`np.fft.irfft(np.fft.rfft(x, N) * np.fft.rfft(fir, N), N)[t]`.  The sum runs
over the indices of `h` rather than over all of `range Nn`: the remaining
padded coefficients of `h` are zero (the engine always has
`len(fir) ≤ N`, since `N = next_pow2(block_size + len(fir) - 1)` with
`block_size ≥ 1`), so those terms vanish. -/
def cyclicConvAt (Nn : ℕ) (x h : List ℚ) (t : ℕ) : ℚ :=
  (h.enum.map fun jc =>
    jc.2 * x.getD (((t : ℤ) - (jc.1 : ℤ)).emod (Nn : ℤ)).toNat 0).sum

/-- The per-block matrix `Y` (`Nn` rows of `nch` channel samples): channel `ch`
of row `t` is the cyclic convolution of that channel's column of `data` with
the filter, as computed by the rfft/irfft round trip in the source. -/
def blockY (Nn nch : ℕ) (data : List (List ℤ)) (fir : List ℚ) : List (List ℚ) :=
  (List.range Nn).map fun t =>
    (List.range nch).map fun ch =>
      cyclicConvAt Nn (data.map fun r => ((r.getD ch 0 : ℤ) : ℚ)) fir t

/-- numpy addition of two row-major matrices whose row counts may need
broadcasting: equal row counts add elementwise; a one-row operand is
stretched to the other's row count (possibly zero); anything else raises
`ValueError`, modelled as `none`. -/
def broadcastAdd (a b : List (List ℚ)) : Option (List (List ℚ)) :=
  if a.length = b.length then some (List.zipWith (List.zipWith (· + ·)) a b)
  else if a.length = 1 then some (b.map fun r => List.zipWith (· + ·) (a.getD 0 []) r)
  else if b.length = 1 then some (a.map fun r => List.zipWith (· + ·) r (b.getD 0 []))
  else none

/-- The `wf_in.readframes(block_size)` loop: split the frame list into consecutive
chunks of at most `n` frames.  Structural fuel (`fuel ≥ l.length` suffices for
`n ≥ 1`) keeps the definition kernel-evaluable. -/
def chunkListAux (n : ℕ) : ℕ → List (List ℤ) → List (List (List ℤ))
  | _, [] => []
  | 0, _ :: _ => []
  | fuel + 1, a :: as => ((a :: as).take n) :: chunkListAux n fuel ((a :: as).drop n)

/-- The sequence of blocks the read loop sees. -/
def chunkList (n : ℕ) (l : List (List ℤ)) : List (List (List ℤ)) :=
  chunkListAux n l.length l

/-- The body of the `while True` read loop of `overlap_add_convolve_wav`,
one iteration per block.  A `none` result is the numpy broadcast
`ValueError` escaping the loop. -/
def convLoop (fir : List ℚ) (nch Nn total : ℕ) :
    List (List (List ℤ)) → ConvState → Option ConvState
  | [], st => some st
  | data :: rest, st =>
    let m := data.length
    let Lh := fir.length
    let Y := blockY Nn nch data fir
    match broadcastAdd (Y.take m) (st.overlap.take m) with
    | none => none
    | some ob =>
      let outB := ob.map fun r => r.map clampTrunc
      let overlapNew := (Y.drop m).take (Lh - 1)
      let overlap2 :=
        overlapNew ++ List.replicate ((Lh - 1) - overlapNew.length) (List.replicate nch 0)
      let processed2 := st.processed + m
      let pct := min 100 ((processed2 : ℚ) / (total : ℚ) * 100)
      convLoop fir nch Nn total rest
        ⟨overlap2, processed2, st.outFrames ++ outB, st.progress ++ [pct]⟩

/-- Model of `overlap_add_convolve_wav` (source lines 270-313), for filters of length at
least 1 (the only lengths its callers produce): reject non-16-bit input before
touching the output, then stream blocks through `convLoop`, flush the carried
tail if it is nonempty, and force a final `100.0` progress event. -/
def overlap_add_convolve_wav (inp : WavIn) (fir : List ℚ) (block_size : ℕ) :
    Except ConvErr ConvResult :=
  if inp.sw ≠ 2 then .error .sampleWidth
  else
    let Lh := fir.length
    let Nn := next_pow2 (block_size + Lh - 1)
    let st0 : ConvState :=
      ⟨List.replicate (Lh - 1) (List.replicate inp.nch 0), 0, [], []⟩
    match convLoop fir inp.nch Nn inp.frames.length (chunkList block_size inp.frames) st0 with
    | none => .error .broadcastErr
    | some st =>
      let tail := if 0 < st.overlap.length then st.overlap.map (fun r => r.map clampTrunc) else []
      .ok ⟨st.outFrames ++ tail, st.progress ++ [100]⟩

/-! ## Band data model and biquad responses (exact reals and complexes)

Models the `Band` dataclass and the pointwise semantics of
`peaking_eq_response`, `lowpass_response`, `highpass_response` and
`compute_total_response` (source lines 98-107 and 173-249).  numpy evaluates
these formulas elementwise over a frequency grid; the embedding is the value
at one query frequency `f`. -/

/-- The `Band` dataclass: `type` is one of `"parametric" | "highpass" |
"lowpass"`, `width_type` one of `"q" | "oct"`; floats become exact reals. -/
structure Band where
  type : String
  f : ℝ
  width_type : String
  width : ℝ
  g : ℝ
  muted : Bool
  solo : Bool
  invert : Bool

/-- The clamped center frequency `f0 = max(1.0, min(band.f, fs/2 - 1))` of
`peaking_eq_response`. -/
noncomputable def peaking_f0 (band : Band) (fs : ℝ) : ℝ :=
  max 1 (min band.f (fs / 2 - 1))

/-- The effective Q of `peaking_eq_response`: in `q` width mode the raw width
clamped to at least 0.01, otherwise the octave-bandwidth conversion
`f2 = f0*2^(bw/2)`, `f1 = f0/2^(bw/2)`, `Q = f0/(f2-f1)`, with fallback `1.0`
when the denominator does not exceed `1e-12`. -/
noncomputable def peaking_Q (band : Band) (fs : ℝ) : ℝ :=
  if band.width_type = "q" then max 0.01 band.width
  else
    let bw := max 0.001 band.width
    let f0 := peaking_f0 band fs
    let f2 := f0 * (2 : ℝ) ^ (bw / 2)
    let f1 := f0 / (2 : ℝ) ^ (bw / 2)
    let denom := f2 - f1
    if denom > 1e-12 then f0 / denom else 1

/-- The biquad quotient `H` of `peaking_eq_response`, before the invert flag
is applied: the audio-EQ peaking biquad evaluated at `z = e^{-jω}`. -/
noncomputable def peaking_H (band : Band) (f fs : ℝ) : ℂ :=
  let f0 := peaking_f0 band fs
  let G := (10 : ℝ) ^ (band.g / 40)
  let Q := peaking_Q band fs
  let w0 := 2 * Real.pi * f0 / fs
  let cosw0 := Real.cos w0
  let sinw0 := Real.sin w0
  let alpha := sinw0 / (2 * Q)
  let b0 := 1 + alpha * G
  let b1 := -2 * cosw0
  let b2 := 1 - alpha * G
  let a0 := 1 + alpha / G
  let a1 := -2 * cosw0
  let a2 := 1 - alpha / G
  let w := 2 * Real.pi * f / fs
  let z1 := Complex.exp (-Complex.I * (w : ℂ))
  let z2 := Complex.exp (-2 * Complex.I * (w : ℂ))
  ((b0 : ℂ) + (b1 : ℂ) * z1 + (b2 : ℂ) * z2) /
    ((a0 : ℂ) + (a1 : ℂ) * z1 + (a2 : ℂ) * z2)

/-- Model of `peaking_eq_response` at one query frequency `f`: the peaking biquad `H`,
negated when the band's invert flag is set. -/
noncomputable def peaking_eq_response (band : Band) (f fs : ℝ) : ℂ :=
  if band.invert then -peaking_H band f fs else peaking_H band f fs

/-- Model of `lowpass_response` at one query frequency: fixed `Q = 1/sqrt 2` lowpass
biquad.  Note that, exactly as in the source, the band's invert flag plays no
role here. -/
noncomputable def lowpass_response (fc f fs : ℝ) : ℂ :=
  let Q := 1 / Real.sqrt 2
  let w0 := 2 * Real.pi * fc / fs
  let cosw0 := Real.cos w0
  let sinw0 := Real.sin w0
  let alpha := sinw0 / (2 * Q)
  let b0 := (1 - cosw0) / 2
  let b1 := 1 - cosw0
  let b2 := (1 - cosw0) / 2
  let a0 := 1 + alpha
  let a1 := -2 * cosw0
  let a2 := 1 - alpha
  let w := 2 * Real.pi * f / fs
  let z1 := Complex.exp (-Complex.I * (w : ℂ))
  let z2 := Complex.exp (-2 * Complex.I * (w : ℂ))
  ((b0 : ℂ) + (b1 : ℂ) * z1 + (b2 : ℂ) * z2) /
    ((a0 : ℂ) + (a1 : ℂ) * z1 + (a2 : ℂ) * z2)

/-- Model of `highpass_response` at one query frequency: fixed `Q = 1/sqrt 2` highpass
biquad; also ignores the invert flag, as in the source. -/
noncomputable def highpass_response (fc f fs : ℝ) : ℂ :=
  let Q := 1 / Real.sqrt 2
  let w0 := 2 * Real.pi * fc / fs
  let cosw0 := Real.cos w0
  let sinw0 := Real.sin w0
  let alpha := sinw0 / (2 * Q)
  let b0 := (1 + cosw0) / 2
  let b1 := -(1 + cosw0)
  let b2 := (1 + cosw0) / 2
  let a0 := 1 + alpha
  let a1 := -2 * cosw0
  let a2 := 1 - alpha
  let w := 2 * Real.pi * f / fs
  let z1 := Complex.exp (-Complex.I * (w : ℂ))
  let z2 := Complex.exp (-2 * Complex.I * (w : ℂ))
  ((b0 : ℂ) + (b1 : ℂ) * z1 + (b2 : ℂ) * z2) /
    ((a0 : ℂ) + (a1 : ℂ) * z1 + (a2 : ℂ) * z2)

/-- The per-band dispatch inside `compute_total_response`: parametric bands go
through `peaking_eq_response`, lowpass/highpass through their fixed-Q
responses, and any other type string contributes the identity response. -/
noncomputable def band_response (b : Band) (f fs : ℝ) : ℂ :=
  if b.type = "parametric" then peaking_eq_response b f fs
  else if b.type = "lowpass" then lowpass_response b.f f fs
  else if b.type = "highpass" then highpass_response b.f f fs
  else 1

/-- Model of `compute_total_response` at one query frequency: start from the identity
response and multiply in each band's response in list order. -/
noncomputable def compute_total_response (bands : List Band) (f fs : ℝ) : ℂ :=
  bands.foldl (fun acc b => acc * band_response b f fs) 1

/-- The magnitude in dB the visualiser derives from a composite response:
`20 * np.log10(np.maximum(np.abs(H), 1e-12))`. -/
noncomputable def magnitude_db (H : ℂ) : ℝ :=
  20 * Real.logb 10 (max (Complex.abs H) 1e-12)

/-- Model of `UnifiedApp._effective_bands` (source lines 987-990): if any band is
soloed, the solo bands; otherwise the unmuted ones.  (`Band.copy` returns an
equal value, so copying is the identity on values.) -/
def effective_bands (bands : List Band) : List Band :=
  if bands.any (fun b => b.solo) then bands.filter (fun b => b.solo)
  else bands.filter (fun b => !b.muted)

/-! ## The FIR designer (`design_linear_phase_fir`, source lines 251-265)

`np.fft.ifft(full)[k]` is `(1/N) * Σ_j full[j] * exp(2πi·j·k/N)`; `np.hanning`
is the symmetric Hann window `0.5 - 0.5*cos(2πk/(M-1))` (with `hanning(0) = []`
and `hanning(1) = [1]`); `np.linspace(a, b, num)` is the inclusive uniform
grid. -/

/-- Semantics of `np.linspace a b num`. -/
noncomputable def linspace (a b : ℝ) (num : ℕ) : List ℝ :=
  if num ≤ 1 then [a]
  else (List.range num).map fun (i : ℕ) => a + (b - a) * i / ((num : ℝ) - 1)

/-- Semantics of `np.concatenate([H_pos, np.conj(H_pos[-2:0:-1])])`: the positive-frequency
samples followed by the conjugated, reversed interior (indices
`len-2, ..., 1`). -/
noncomputable def hermitianMirror (hpos : List ℂ) : List ℂ :=
  hpos ++ (((hpos.take (hpos.length - 1)).drop 1).reverse.map (starRingEnd ℂ))

/-- Semantics of `np.fft.ifft` on a complex vector. -/
noncomputable def npIfft (v : List ℂ) : List ℂ :=
  (List.range v.length).map fun (k : ℕ) =>
    (v.enum.map fun ja =>
        ja.2 * Complex.exp (2 * Real.pi * Complex.I * ja.1 * k / v.length)).sum / v.length

/-- Semantics of `np.hanning M`. -/
noncomputable def hanning (M : ℕ) : List ℝ :=
  if M ≤ 1 then List.replicate M 1
  else (List.range M).map fun (k : ℕ) => 0.5 - 0.5 * Real.cos (2 * Real.pi * k / ((M : ℝ) - 1))

/-- The value of `n_taps` coerced up to the next even integer, as at the top of
`design_linear_phase_fir`. -/
def evenTaps (n_taps : ℕ) : ℕ := if n_taps % 2 ≠ 0 then n_taps + 1 else n_taps

/-- Prefix of `design_linear_phase_fir` up to (but not including) the normalization
step: sample the composite response on `linspace(0, fs/2, n/2+1)`, mirror to a
full Hermitian spectrum, inverse-transform, keep the real part, and apply the
Hann window. -/
noncomputable def firWindowed (bands : List Band) (fs : ℝ) (n_taps : ℕ) : List ℝ :=
  let n := evenTaps n_taps
  let freqs := linspace 0 (fs / 2) (n / 2 + 1)
  let hpos := freqs.map fun f => compute_total_response bands f fs
  let full := hermitianMirror hpos
  let h := (npIfft full).map Complex.re
  List.zipWith (· * ·) h (hanning h.length)

/-- Model of `design_linear_phase_fir`: normalize the windowed samples by their sum
when that sum exceeds `1e-12` in magnitude, and return the first `n_taps`
(after the even coercion) coefficients. -/
noncomputable def design_linear_phase_fir (bands : List Band) (fs : ℝ) (n_taps : ℕ) : List ℝ :=
  let hw := firWindowed bands fs n_taps
  let s := hw.sum
  (if 1e-12 < |s| then hw.map (· / s) else hw).take (evenTaps n_taps)

instance {α β : Type} [DecidableEq α] [DecidableEq β] : DecidableEq (Except α β)
  | .error a, .error b => decidable_of_iff (a = b) (by simp)
  | .error _, .ok _ => isFalse (by simp)
  | .ok _, .error _ => isFalse (by simp)
  | .ok a, .ok b => decidable_of_iff (a = b) (by simp)

/-! ## General-purpose lemmas about the embedded operations -/

theorem bitLenAux_lt (fuel : ℕ) : ∀ y : ℕ, y ≤ fuel → y < 2 ^ bitLenAux fuel y := by
  induction fuel with
  | zero => intro y hy; interval_cases y; simp [bitLenAux]
  | succ fuel ih =>
    intro y hy
    by_cases h0 : y = 0
    · simp [bitLenAux, h0]
    · rw [bitLenAux, if_neg h0]
      have hrec := ih (y / 2) (by omega)
      have : 2 ^ (bitLenAux fuel (y / 2) + 1) = 2 ^ bitLenAux fuel (y / 2) * 2 := by
        rw [pow_succ]
      omega

theorem le_next_pow2 (x : ℕ) : x ≤ next_pow2 x := by
  cases x with
  | zero => exact Nat.zero_le _
  | succ x =>
    have := bitLenAux_lt x x le_rfl
    simpa [next_pow2, bitLen] using this

theorem chunkListAux_nil (n fuel : ℕ) : chunkListAux n fuel [] = [] := by
  cases fuel <;> rfl

theorem chunkList_single (n : ℕ) (l : List (List ℤ)) (hne : l ≠ []) (hlen : l.length ≤ n) :
    chunkList n l = [l] := by
  cases l with
  | nil => exact absurd rfl hne
  | cons a as =>
    rw [chunkList, List.length_cons, chunkListAux,
      List.take_of_length_le (by simpa using hlen),
      List.drop_eq_nil_of_le (by simpa using hlen), chunkListAux_nil]

theorem chunkListAux_length_sum (n : ℕ) (hn : 1 ≤ n) :
    ∀ (fuel : ℕ) (l : List (List ℤ)), l.length ≤ fuel →
      ((chunkListAux n fuel l).map List.length).sum = l.length := by
  intro fuel
  induction fuel with
  | zero =>
    intro l hl
    have : l = [] := List.length_eq_zero.mp (by omega)
    simp [this, chunkListAux_nil]
  | succ fuel ih =>
    intro l hl
    cases l with
    | nil => simp [chunkListAux_nil]
    | cons a as =>
      rw [chunkListAux, List.map_cons, List.sum_cons, List.length_take,
        ih ((a :: as).drop n) (by simp at hl ⊢; omega)]
      simp only [List.length_drop, List.length_cons]
      omega

theorem ratTrunc_intCast (z : ℤ) : ratTrunc (z : ℚ) = z := by
  rw [ratTrunc]
  split_ifs <;> simp

theorem clampTrunc_bounds (q : ℚ) : -32767 ≤ clampTrunc q ∧ clampTrunc q ≤ 32767 := by
  rw [clampTrunc, ratTrunc]
  set c := max (-32767 : ℚ) (min 32767 q) with hc
  have hlo : (-32767 : ℚ) ≤ c := le_max_left _ _
  have hhi : c ≤ 32767 := max_le (by norm_num) (min_le_left _ _)
  split_ifs with hneg
  · constructor
    · have := Int.ceil_le_ceil hlo
      simpa using this
    · have : (⌈c⌉ : ℤ) ≤ ⌈(32767 : ℚ)⌉ := Int.ceil_le_ceil hhi
      simpa using this
  · constructor
    · have : (⌊(-32767 : ℚ)⌋ : ℤ) ≤ ⌊c⌋ := Int.floor_le_floor hlo
      simpa using this
    · have : (⌊c⌋ : ℤ) ≤ ⌊(32767 : ℚ)⌋ := Int.floor_le_floor hhi
      simpa using this

theorem clampTrunc_intCast_of_mem (z : ℤ) (h1 : -32767 ≤ z) (h2 : z ≤ 32767) :
    clampTrunc (z : ℚ) = z := by
  have hmin : min (32767 : ℚ) (z : ℚ) = (z : ℚ) :=
    min_eq_right (by exact_mod_cast h2)
  have hmax : max (-32767 : ℚ) (z : ℚ) = (z : ℚ) :=
    max_eq_right (by exact_mod_cast h1)
  rw [clampTrunc, hmin, hmax, ratTrunc_intCast]

theorem broadcastAdd_none {a b : List (List ℚ)} (h1 : a.length ≠ b.length)
    (h2 : a.length ≠ 1) (h3 : b.length ≠ 1) : broadcastAdd a b = none := by
  rw [broadcastAdd, if_neg h1, if_neg h2, if_neg h3]

/-! ## Claim C7: sample-width guard -/

/-- C7: for every input whose sample width is not 2 bytes, the engine fails
with the sample-width error (producing no output at all); for 16-bit input
that error is never produced. -/
theorem C7_sample_width_guard (inp : WavIn) (fir : List ℚ) (bs : ℕ) :
    (inp.sw ≠ 2 → overlap_add_convolve_wav inp fir bs = .error .sampleWidth) ∧
    (inp.sw = 2 → overlap_add_convolve_wav inp fir bs ≠ .error .sampleWidth) := by
  constructor
  · intro h
    rw [overlap_add_convolve_wav, if_pos h]
  · intro h
    rw [overlap_add_convolve_wav, if_neg (by simp [h])]
    rcases hc : convLoop fir inp.nch (next_pow2 (bs + fir.length - 1)) inp.frames.length
        (chunkList bs inp.frames)
        ⟨List.replicate (fir.length - 1) (List.replicate inp.nch 0), 0, [], []⟩ with _ | st
    · simp [hc]
    · simp [hc]

/-- Witness for C7 at concrete inputs: a 3-byte-wide input is rejected with
the sample-width error, a 2-byte-wide one is not. -/
theorem C7_sample_width_witness :
    overlap_add_convolve_wav ⟨1, 44100, 3, [[5]]⟩ [1] 1 = .error .sampleWidth ∧
    overlap_add_convolve_wav ⟨1, 44100, 2, [[5]]⟩ [1] 1 ≠ .error .sampleWidth :=
  ⟨(C7_sample_width_guard ⟨1, 44100, 3, [[5]]⟩ [1] 1).1 (by norm_num),
   (C7_sample_width_guard ⟨1, 44100, 2, [[5]]⟩ [1] 1).2 rfl⟩

/-! ## Claim C9: empty band set composes to the identity -/

/-- C9: for the empty effective band set, the composite response is the
identity `H = 1` at every query frequency and sample rate, so the composite
magnitude response is 0 dB everywhere. -/
theorem C9_empty_chain_identity (f fs : ℝ) :
    compute_total_response [] f fs = 1 ∧
    magnitude_db (compute_total_response [] f fs) = 0 := by
  refine ⟨rfl, ?_⟩
  rw [show compute_total_response [] f fs = 1 from rfl, magnitude_db]
  rw [show Complex.abs 1 = 1 from map_one _]
  rw [max_eq_left (by norm_num), Real.logb_one, mul_zero]

/-! ## Claim C4: mute/solo resolution -/

/-- Band `A` of the spec's solo example: neither muted nor soloed. -/
def bandA : Band := ⟨"parametric", 100, "q", 1, 3, false, false, false⟩

/-- Band `B` of the spec's solo example: soloed. -/
def bandB : Band := ⟨"parametric", 1000, "q", 1, -2, false, true, false⟩

/-- Band `C` of the spec's solo example: muted. -/
def bandC : Band := ⟨"lowpass", 8000, "q", 1, 0, true, false, false⟩

/-- C4: if some band is soloed the effective set is exactly the soloed bands
(muting ignored); otherwise it is exactly the unmuted bands; and on the
example `A(muted=false), B(solo=true), C(muted=true)` it is exactly `[B]`. -/
theorem C4_effective_set_rule :
    (∀ bands : List Band,
      ((∃ b ∈ bands, b.solo = true) →
        ∀ x, x ∈ effective_bands bands ↔ x ∈ bands ∧ x.solo = true) ∧
      ((∀ b ∈ bands, b.solo = false) →
        ∀ x, x ∈ effective_bands bands ↔ x ∈ bands ∧ x.muted = false)) ∧
    effective_bands [bandA, bandB, bandC] = [bandB] := by
  constructor
  · intro bands
    constructor
    · rintro ⟨b, hb, hs⟩ x
      have hany : bands.any (fun b => b.solo) = true := List.any_eq_true.2 ⟨b, hb, hs⟩
      rw [effective_bands, if_pos hany]
      simp [List.mem_filter]
    · intro hall x
      have hany : bands.any (fun b => b.solo) = false := by
        rw [List.any_eq_false]
        intro b hb
        simp [hall b hb]
      rw [effective_bands, hany]
      simp [List.mem_filter]
  · rfl

/-- Witness for C4: membership in the effective set of the concrete example
is solo membership. -/
theorem C4_effective_set_witness :
    bandB ∈ effective_bands [bandA, bandB, bandC] ↔
      bandB ∈ [bandA, bandB, bandC] ∧ bandB.solo = true :=
  (C4_effective_set_rule.1 [bandA, bandB, bandC]).1 ⟨bandB, by simp, rfl⟩ bandB

/-! ## Claim C2: the invert flag -/

/-- A lowpass band with cutoff `1`; the invert flag is overridden at use
sites. -/
def lpBand : Band := ⟨"lowpass", 1, "q", 1, 0, false, false, false⟩

/-- A parametric band used to witness the parametric half of the invert
rule. -/
def pEQBand : Band := ⟨"parametric", 1000, "q", 1, 6, false, false, false⟩

theorem lowpass_dc_value : lowpass_response 1 0 4 = 1 := by
  rw [lowpass_response]
  have hw0 : (2 * Real.pi / 4 : ℝ) = Real.pi / 2 := by ring
  have hw : (2 * Real.pi * 0 / 4 : ℝ) = 0 := by ring
  simp only [mul_one, hw0, hw, Real.cos_pi_div_two, Real.sin_pi_div_two, Complex.ofReal_zero,
    mul_zero, Complex.exp_zero]
  push_cast
  ring_nf
  norm_num

/-- C2 counterexample: for a lowpass band, the response with `invert = true`
is not the negation of the response with `invert = false` (at query frequency
0 with `fs = 4` both responses are `1`). -/
theorem C2_invert_counterexample :
    band_response { lpBand with invert := true } 0 4 ≠
      - band_response { lpBand with invert := false } 0 4 := by
  have h1 : band_response { lpBand with invert := true } 0 4 = 1 := by
    rw [band_response, show ({ lpBand with invert := true } : Band).type = "lowpass" from rfl,
      show ({ lpBand with invert := true } : Band).f = 1 from rfl,
      if_neg (by decide), if_pos rfl]
    exact lowpass_dc_value
  have h2 : band_response { lpBand with invert := false } 0 4 = 1 := by
    rw [band_response, show ({ lpBand with invert := false } : Band).type = "lowpass" from rfl,
      show ({ lpBand with invert := false } : Band).f = 1 from rfl,
      if_neg (by decide), if_pos rfl]
    exact lowpass_dc_value
  rw [h1, h2]
  intro h
  have : (2 : ℂ) = 0 := by linear_combination h
  norm_num at this

/-- C2 amended: the invert flag negates the response exactly for parametric
bands; for every other band type (lowpass, highpass, unknown) the flag is
ignored and the response is unchanged. -/
theorem C2_invert_negation_amended (b : Band) (f fs : ℝ) :
    (b.type = "parametric" →
      band_response { b with invert := true } f fs =
        - band_response { b with invert := false } f fs) ∧
    (b.type ≠ "parametric" →
      band_response { b with invert := true } f fs =
        band_response { b with invert := false } f fs) := by
  have ht1 : ({ b with invert := true } : Band).type = b.type := rfl
  have ht0 : ({ b with invert := false } : Band).type = b.type := rfl
  have hf1 : ({ b with invert := true } : Band).f = b.f := rfl
  have hf0 : ({ b with invert := false } : Band).f = b.f := rfl
  constructor
  · intro h
    rw [band_response, band_response, ht1, ht0, if_pos h, if_pos h,
      peaking_eq_response, peaking_eq_response,
      show ({ b with invert := true } : Band).invert = true from rfl,
      show ({ b with invert := false } : Band).invert = false from rfl,
      if_pos rfl, if_neg (by decide)]
    rfl
  · intro h
    rw [band_response, band_response]
    simp only [ht1, ht0, hf1, hf0, if_neg h]

/-- Witness for C2 amended, at a concrete parametric band and frequency. -/
theorem C2_invert_witness :
    band_response { pEQBand with invert := true } 100 441 =
      - band_response { pEQBand with invert := false } 100 441 :=
  (C2_invert_negation_amended pEQBand 100 441).1 rfl

/-! ## Claim C6: minimum effective Q -/

/-- A parametric band whose width is a 14-octave bandwidth. -/
def octBand : Band := ⟨"parametric", 100, "oct", 14, 0, false, false, false⟩

/-- A parametric band whose width is a direct Q of 0.001 (clamped to 0.01). -/
def qBand : Band := ⟨"parametric", 100, "q", 0.001, 0, false, false, false⟩

/-- C6 counterexample: in octave width mode the effective Q is not clamped to
0.01: a 14-octave bandwidth at `f0 = 100`, `fs = 1000` yields
`Q = 128/16383 < 0.01`. -/
theorem C6_minQ_counterexample : peaking_Q octBand 1000 < 0.01 := by
  rw [peaking_Q, if_neg (by decide)]
  have hf0 : peaking_f0 octBand 1000 = 100 := by
    rw [peaking_f0]
    norm_num [octBand]
  have hbw : max (0.001 : ℝ) octBand.width = 14 := by norm_num [octBand]
  have hpow : (2 : ℝ) ^ ((14 : ℝ) / 2) = 128 := by
    rw [show (14 : ℝ) / 2 = ((7 : ℕ) : ℝ) by norm_num, Real.rpow_natCast]
    norm_num
  simp only [hbw, hf0, hpow]
  norm_num

/-- C6 amended: the effective Q is always strictly positive, and the 0.01
floor is guaranteed in direct-Q width mode (in octave mode the conversion can
produce any positive value, and the underflow fallback is 1). -/
theorem C6_minQ_amended (b : Band) (fs : ℝ) :
    0 < peaking_Q b fs ∧ (b.width_type = "q" → 0.01 ≤ peaking_Q b fs) := by
  constructor
  · simp only [peaking_Q]
    split_ifs with hq hd
    · exact lt_max_of_lt_left (by norm_num)
    · apply div_pos
      · exact lt_of_lt_of_le zero_lt_one (le_max_left _ _)
      · calc (0 : ℝ) < 1e-12 := by norm_num
          _ < _ := hd
    · exact zero_lt_one
  · intro hq
    rw [peaking_Q, if_pos hq]
    exact le_max_left _ _

/-- Witness for C6 amended: positivity at the octave band, and the 0.01 floor
at the q-mode band. -/
theorem C6_minQ_witness :
    0 < peaking_Q octBand 1000 ∧ 0.01 ≤ peaking_Q qBand 441 :=
  ⟨(C6_minQ_amended octBand 1000).1, (C6_minQ_amended qBand 441).2 rfl⟩

/-! ## Engine lemmas shared by the streaming-convolution claims -/

theorem blockY_length (Nn nch : ℕ) (data : List (List ℤ)) (fir : List ℚ) :
    (blockY Nn nch data fir).length = Nn := by
  simp [blockY]

/-- One loop step fails with the numpy broadcast error as soon as the row
counts of `Y[:m]` and `overlap[:m]` differ and neither is 1. -/
theorem convLoop_broadcast_fail (fir : List ℚ) (nch Nn total : ℕ)
    (data : List (List ℤ)) (rest : List (List (List ℤ))) (st : ConvState)
    (h1 : ((blockY Nn nch data fir).take data.length).length ≠
      (st.overlap.take data.length).length)
    (h2 : ((blockY Nn nch data fir).take data.length).length ≠ 1)
    (h3 : (st.overlap.take data.length).length ≠ 1) :
    convLoop fir nch Nn total (data :: rest) st = none := by
  simp only [convLoop, broadcastAdd_none h1 h2 h3]

/-- Successful-run output accounting: when every block has at most `L - 1`
frames (and `L ≥ 2`), each loop step adds exactly the block's frame count to
the output and keeps the overlap at `L - 1` rows. -/
theorem convLoop_success_count (fir : List ℚ) (nch Nn total : ℕ)
    (hNn : fir.length - 1 ≤ Nn) :
    ∀ (blocks : List (List (List ℤ))) (st : ConvState),
      (∀ c ∈ blocks, c.length ≤ fir.length - 1) →
      st.overlap.length = fir.length - 1 →
      ∃ st', convLoop fir nch Nn total blocks st = some st' ∧
        st'.outFrames.length = st.outFrames.length + ((blocks.map List.length).sum) ∧
        st'.overlap.length = fir.length - 1 := by
  intro blocks
  induction blocks with
  | nil =>
    intro st _ hov
    exact ⟨st, rfl, by simp, hov⟩
  | cons data rest ih =>
    intro st hblocks hov
    have hm : data.length ≤ fir.length - 1 := hblocks data (by simp)
    have hta : ((blockY Nn nch data fir).take data.length).length = data.length := by
      rw [List.length_take, blockY_length]
      omega
    have htb : (st.overlap.take data.length).length = data.length := by
      rw [List.length_take, hov]
      omega
    have hbc : broadcastAdd ((blockY Nn nch data fir).take data.length)
        (st.overlap.take data.length) =
        some (List.zipWith (List.zipWith (· + ·)) ((blockY Nn nch data fir).take data.length)
          (st.overlap.take data.length)) := by
      rw [broadcastAdd, if_pos (hta.trans htb.symm)]
    obtain ⟨st', hst', hlen, hov'⟩ := ih
      ⟨((blockY Nn nch data fir).drop data.length).take (fir.length - 1) ++
          List.replicate ((fir.length - 1) -
            (((blockY Nn nch data fir).drop data.length).take (fir.length - 1)).length)
            (List.replicate nch 0),
        st.processed + data.length,
        st.outFrames ++ (List.zipWith (List.zipWith (· + ·))
          ((blockY Nn nch data fir).take data.length)
          (st.overlap.take data.length)).map (fun r => r.map clampTrunc),
        st.progress ++ [min 100 (((st.processed + data.length : ℕ) : ℚ) / (total : ℚ) * 100)]⟩
      (fun c hc => hblocks c (by simp [hc]))
      (by
        simp only [List.length_append, List.length_replicate]
        have : (((blockY Nn nch data fir).drop data.length).take (fir.length - 1)).length ≤
            fir.length - 1 := by
          rw [List.length_take]
          omega
        omega)
    refine ⟨st', ?_, ?_, hov'⟩
    · simp only [convLoop, hbc]
      exact hst'
    · rw [hlen]
      simp only [List.length_append, List.length_map, List.length_zipWith, hta, htb,
        List.map_cons, List.sum_cons]
      omega

/-! ## Claim C1: the spec's streaming-vs-direct equivalence scenario -/

/-- The spec's two-channel 200-frame deterministic test signal (any concrete
sample values; the failure is shape-driven). -/
def sig200 : List (List ℤ) := List.replicate 200 [1000, -1000]

/-- The spec's 9-tap symmetric averaging FIR. -/
def fir9 : List ℚ := List.replicate 9 ((1 : ℚ) / 9)

/-- C1: running the engine on the spec's own scenario (two channels, 200
frames, a 9-tap FIR, the default 65536-sample block size) does not produce
the direct-convolution output at all: the very first block dies on the numpy
broadcast error, because `out_block = Y[:m, :] + overlap[:m, :]` adds a
200-row matrix to an 8-row one. -/
theorem sig200_length : sig200.length = 200 := by
  rw [sig200, List.length_replicate]

theorem fir9_length : fir9.length = 9 := by
  rw [fir9, List.length_replicate]

theorem C1_streaming_engine_broadcast_crash :
    overlap_add_convolve_wav ⟨2, 44100, 2, sig200⟩ fir9 65536 = .error .broadcastErr := by
  have hchunk : chunkList 65536 sig200 = [sig200] :=
    chunkList_single _ _
      (by
        intro h
        have := congrArg List.length h
        rw [sig200_length] at this
        simp at this)
      (by rw [sig200_length]; norm_num)
  have hNn : (200 : ℕ) ≤ next_pow2 (65536 + fir9.length - 1) := by
    have h := le_next_pow2 (65536 + fir9.length - 1)
    rw [fir9_length] at h ⊢
    omega
  have hfail := convLoop_broadcast_fail fir9 2 (next_pow2 (65536 + fir9.length - 1))
    sig200.length sig200 []
    ⟨List.replicate (fir9.length - 1) (List.replicate 2 0), 0, [], []⟩
    (by
      rw [fir9_length] at hNn
      rw [List.length_take, List.length_take, blockY_length, List.length_replicate,
        sig200_length, fir9_length]
      omega)
    (by
      rw [fir9_length] at hNn
      rw [List.length_take, blockY_length, sig200_length, fir9_length]
      omega)
    (by
      rw [List.length_take, List.length_replicate, sig200_length, fir9_length]
      omega)
  rw [overlap_add_convolve_wav, if_neg (by norm_num)]
  simp only [hchunk, hfail]

/-! ## Claim C10: output frame count -/

/-- C10 counterexample: a single-frame input with the one-tap filter `[1]`
produces zero output frames (numpy's zero-row overlap broadcasts the block
output down to zero rows), not the claimed `F + (L - 1) = 1`. -/
theorem C10_output_count_counterexample :
    overlap_add_convolve_wav ⟨1, 44100, 2, [[5]]⟩ [1] 1 = .ok ⟨[], [100, 100]⟩ ∧
    (ConvResult.mk [] [100, 100]).outFrames.length ≠
      ([[5]] : List (List ℤ)).length + ([(1 : ℚ)].length - 1) := by
  constructor
  · norm_num [overlap_add_convolve_wav, convLoop, chunkList, chunkListAux, blockY, cyclicConvAt,
      broadcastAdd, clampTrunc, ratTrunc, next_pow2, bitLen, bitLenAux, List.enum, min_def,
      max_def, Int.ceil_neg, List.range_succ]
  · simp

/-- C10 amended: whenever the engine does not hit the broadcast error — in
particular whenever the filter has `L ≥ 2` taps and every block read has at
most `L - 1` frames — it writes exactly `F + (L - 1)` output frames. -/
theorem C10_output_count_amended (inp : WavIn) (fir : List ℚ) (bs : ℕ)
    (hsw : inp.sw = 2) (hbs : 1 ≤ bs) (hL : 2 ≤ fir.length)
    (hchunks : ∀ c ∈ chunkList bs inp.frames, c.length ≤ fir.length - 1) :
    ∃ r, overlap_add_convolve_wav inp fir bs = .ok r ∧
      r.outFrames.length = inp.frames.length + (fir.length - 1) := by
  have hNn : fir.length - 1 ≤ next_pow2 (bs + fir.length - 1) :=
    le_trans (by omega) (le_next_pow2 _)
  obtain ⟨st', hloop, hlen, hov⟩ :=
    convLoop_success_count fir inp.nch (next_pow2 (bs + fir.length - 1)) inp.frames.length hNn
      (chunkList bs inp.frames)
      ⟨List.replicate (fir.length - 1) (List.replicate inp.nch 0), 0, [], []⟩
      hchunks (by simp)
  refine ⟨⟨st'.outFrames ++ st'.overlap.map (fun r => r.map clampTrunc),
    st'.progress ++ [100]⟩, ?_, ?_⟩
  · rw [overlap_add_convolve_wav, if_neg (by simp [hsw])]
    simp only [hloop, if_pos (show 0 < st'.overlap.length by omega)]
  · have hsum : ((chunkList bs inp.frames).map List.length).sum = inp.frames.length :=
      chunkListAux_length_sum bs hbs inp.frames.length inp.frames le_rfl
    simp only [List.length_append, List.length_map, List.length_nil, hov, hlen, hsum]
    omega

/-- Witness for C10 amended: two single-frame blocks through a 3-tap filter
give `2 + 2 = 4` output frames. -/
theorem C10_output_count_witness :
    ∃ r, overlap_add_convolve_wav ⟨1, 8000, 2, [[3], [4]]⟩ [1, 0, 0] 1 = .ok r ∧
      r.outFrames.length = ([[3], [4]] : List (List ℤ)).length + ([(1 : ℚ), 0, 0].length - 1) :=
  C10_output_count_amended ⟨1, 8000, 2, [[3], [4]]⟩ [1, 0, 0] 1 rfl (by norm_num) (by norm_num)
    (by
      intro c hc
      simp only [chunkList, chunkListAux, List.length_cons, List.length_nil] at hc
      norm_num at hc
      rcases hc with h | h <;> simp [h])

/-! ## Claim C3: output clamping -/

/-- Every sample accumulated into `outFrames` by the loop is a clamped
value, hence lies in `[-32767, 32767]`. -/
theorem convLoop_out_range (fir : List ℚ) (nch Nn total : ℕ) :
    ∀ (blocks : List (List (List ℤ))) (st st' : ConvState),
      convLoop fir nch Nn total blocks st = some st' →
      (∀ fr ∈ st.outFrames, ∀ s ∈ fr, -32767 ≤ s ∧ s ≤ 32767) →
      ∀ fr ∈ st'.outFrames, ∀ s ∈ fr, -32767 ≤ s ∧ s ≤ 32767 := by
  intro blocks
  induction blocks with
  | nil =>
    intro st st' h hinv
    rw [convLoop] at h
    cases h
    exact hinv
  | cons data rest ih =>
    intro st st' h hinv
    rcases hbc : broadcastAdd ((blockY Nn nch data fir).take data.length)
        (st.overlap.take data.length) with _ | ob
    · simp only [convLoop, hbc] at h
      exact Option.noConfusion h
    · simp only [convLoop, hbc] at h
      refine ih _ _ h ?_
      intro fr hfr s hs
      rcases List.mem_append.mp hfr with hfr | hfr
      · exact hinv fr hfr s hs
      · obtain ⟨row, _, rfl⟩ := List.mem_map.mp hfr
        obtain ⟨q, _, rfl⟩ := List.mem_map.mp hs
        exact clampTrunc_bounds q

/-- C3 amended: every sample the engine emits (block outputs and tail) lies in
`[-32767, 32767]` — the lower clip bound is `-32767`, not `-32768` — and
integer sample values already inside `[-32767, 32767]` pass through the
clamp-and-truncate step unchanged. -/
theorem C3_clamp_amended (inp : WavIn) (fir : List ℚ) (bs : ℕ) (r : ConvResult)
    (h : overlap_add_convolve_wav inp fir bs = .ok r) :
    (∀ fr ∈ r.outFrames, ∀ s ∈ fr, -32767 ≤ s ∧ s ≤ 32767) ∧
    (∀ z : ℤ, -32767 ≤ z → z ≤ 32767 → clampTrunc (z : ℚ) = z) := by
  refine ⟨?_, fun z h1 h2 => clampTrunc_intCast_of_mem z h1 h2⟩
  rw [overlap_add_convolve_wav] at h
  by_cases hsw : inp.sw = 2
  · rw [if_neg (by simp [hsw])] at h
    rcases hloop : convLoop fir inp.nch (next_pow2 (bs + fir.length - 1)) inp.frames.length
        (chunkList bs inp.frames)
        ⟨List.replicate (fir.length - 1) (List.replicate inp.nch 0), 0, [], []⟩ with _ | st'
    · simp only [hloop] at h
      exact Except.noConfusion h
    · simp only [hloop, Except.ok.injEq] at h
      subst h
      intro fr hfr s hs
      simp only [List.mem_append] at hfr
      rcases hfr with hfr | hfr
      · exact convLoop_out_range fir inp.nch _ _ _ _ _ hloop (by simp) fr hfr s hs
      · rcases Nat.eq_zero_or_pos st'.overlap.length with h0 | hpos
        · rw [if_neg (by omega)] at hfr
          simp at hfr
        · rw [if_pos hpos] at hfr
          obtain ⟨row, _, rfl⟩ := List.mem_map.mp hfr
          obtain ⟨q, _, rfl⟩ := List.mem_map.mp hs
          exact clampTrunc_bounds q
  · rw [if_pos hsw] at h
    cases h

/-- C3 counterexample: a `-16384` sample through the two-tap filter `[2, 0]`
has exact convolution value `-32768`, which is inside the legal 16-bit range
`[-32768, 32767]`, yet the engine emits `-32767`: the clip bound is
`-32767`, so the in-range value `-32768` is not passed through. -/
theorem C3_clamp_counterexample :
    overlap_add_convolve_wav ⟨1, 44100, 2, [[-16384]]⟩ [2, 0] 1 =
        .ok ⟨[[-32767], [0]], [100, 100]⟩ ∧
      blockY (next_pow2 (1 + 2 - 1)) 1 [[-16384]] [2, 0] = [[-32768], [0]] ∧
      ((-32768 : ℤ) ≠ -32767 ∧ -32768 ≤ (32767 : ℤ) ∧ (-32768 : ℤ) ≤ -32768) := by
  refine ⟨?_, ?_, by norm_num⟩
  · norm_num [overlap_add_convolve_wav, convLoop, chunkList, chunkListAux, blockY, cyclicConvAt,
      broadcastAdd, clampTrunc, ratTrunc, next_pow2, bitLen, bitLenAux, List.enum, min_def,
      max_def, Int.ceil_neg, List.range_succ]
  · norm_num [blockY, cyclicConvAt, next_pow2, bitLen, bitLenAux, List.enum, List.range_succ]

/-- Witness for C3 amended: the bound and pass-through statements at a
concrete successful run and a concrete in-range sample. -/
theorem C3_clamp_witness :
    (∀ fr ∈ (ConvResult.mk [[100], [200], [0]] [50, 100, 100]).outFrames,
      ∀ s ∈ fr, -32767 ≤ s ∧ s ≤ 32767) ∧
    (∀ z : ℤ, -32767 ≤ z → z ≤ 32767 → clampTrunc (z : ℚ) = z) :=
  C3_clamp_amended ⟨1, 44100, 2, [[100], [200]]⟩ [1, 0] 1 ⟨[[100], [200], [0]], [50, 100, 100]⟩
    (by
      norm_num [overlap_add_convolve_wav, convLoop, chunkList, chunkListAux, blockY, cyclicConvAt,
        broadcastAdd, clampTrunc, ratTrunc, next_pow2, bitLen, bitLenAux, List.enum, min_def,
        max_def, Int.ceil_neg, List.range_succ])

/-! ## Claim C8: progress reporting -/

theorem pct_nonneg (total p : ℕ) : 0 ≤ min 100 ((p : ℚ) / (total : ℚ) * 100) := by
  refine le_min (by norm_num) ?_
  positivity

theorem pct_le_100 (total p : ℕ) : min 100 ((p : ℚ) / (total : ℚ) * 100) ≤ 100 :=
  min_le_left _ _

theorem pct_mono (total : ℕ) {p q : ℕ} (hpq : p ≤ q) :
    min 100 ((p : ℚ) / (total : ℚ) * 100) ≤ min 100 ((q : ℚ) / (total : ℚ) * 100) := by
  refine min_le_min le_rfl ?_
  rw [div_eq_mul_inv, div_eq_mul_inv]
  have h1 : ((p : ℚ)) ≤ (q : ℚ) := by exact_mod_cast hpq
  have h2 : (0 : ℚ) ≤ ((total : ℚ))⁻¹ := by positivity
  exact mul_le_mul_of_nonneg_right (mul_le_mul_of_nonneg_right h1 h2) (by norm_num)

theorem mem_of_getLast?_mem {α : Type} {l : List α} {x : α} (h : x ∈ l.getLast?) : x ∈ l := by
  obtain ⟨hne, rfl⟩ := List.mem_getLast?_eq_getLast h
  exact List.getLast_mem hne

/-- Loop invariant for the progress events: the accumulated list is a
non-decreasing sequence of values in `[0, 100]`, all bounded by the percentage
of the frames processed so far. -/
theorem convLoop_progress (fir : List ℚ) (nch Nn total : ℕ) :
    ∀ (blocks : List (List (List ℤ))) (st st' : ConvState),
      convLoop fir nch Nn total blocks st = some st' →
      st.progress.Chain' (· ≤ ·) →
      (∀ p ∈ st.progress, 0 ≤ p ∧ p ≤ 100) →
      (∀ p ∈ st.progress, p ≤ min 100 ((st.processed : ℚ) / (total : ℚ) * 100)) →
      st'.progress.Chain' (· ≤ ·) ∧ (∀ p ∈ st'.progress, 0 ≤ p ∧ p ≤ 100) ∧
      (∀ p ∈ st'.progress, p ≤ min 100 ((st'.processed : ℚ) / (total : ℚ) * 100)) := by
  intro blocks
  induction blocks with
  | nil =>
    intro st st' h h1 h2 h3
    rw [convLoop] at h
    cases h
    exact ⟨h1, h2, h3⟩
  | cons data rest ih =>
    intro st st' h h1 h2 h3
    rcases hbc : broadcastAdd ((blockY Nn nch data fir).take data.length)
        (st.overlap.take data.length) with _ | ob
    · simp only [convLoop, hbc] at h
      exact Option.noConfusion h
    · simp only [convLoop, hbc] at h
      refine ih _ _ h ?_ ?_ ?_
      · rw [List.chain'_append]
        refine ⟨h1, List.chain'_singleton _, ?_⟩
        intro x hx y hy
        simp only [List.head?_cons, Option.mem_def, Option.some.injEq] at hy
        subst hy
        calc x ≤ min 100 ((st.processed : ℚ) / (total : ℚ) * 100) :=
              h3 x (mem_of_getLast?_mem hx)
          _ ≤ _ := pct_mono total (Nat.le_add_right _ _)
      · intro p hp
        rcases List.mem_append.mp hp with hp | hp
        · exact h2 p hp
        · simp only [List.mem_singleton] at hp
          subst hp
          exact ⟨pct_nonneg _ _, pct_le_100 _ _⟩
      · intro p hp
        rcases List.mem_append.mp hp with hp | hp
        · calc p ≤ min 100 ((st.processed : ℚ) / (total : ℚ) * 100) := h3 p hp
            _ ≤ _ := pct_mono total (Nat.le_add_right _ _)
        · simp only [List.mem_singleton] at hp
          subst hp
          exact le_rfl

/-- C8 amended: the progress values reported by a successful run form a
monotonically non-decreasing sequence of percentages in `[0, 100]` — namely
`min(100, 100 * processed/total)` after each block — and the final reported
value is exactly `100.0` (not the fraction `1.0`). -/
theorem C8_progress_amended (inp : WavIn) (fir : List ℚ) (bs : ℕ) (r : ConvResult)
    (h : overlap_add_convolve_wav inp fir bs = .ok r) :
    r.progress.Chain' (· ≤ ·) ∧ (∀ p ∈ r.progress, 0 ≤ p ∧ p ≤ 100) ∧
    r.progress.getLast? = some 100 := by
  rw [overlap_add_convolve_wav] at h
  by_cases hsw : inp.sw = 2
  · rw [if_neg (by simp [hsw])] at h
    rcases hloop : convLoop fir inp.nch (next_pow2 (bs + fir.length - 1)) inp.frames.length
        (chunkList bs inp.frames)
        ⟨List.replicate (fir.length - 1) (List.replicate inp.nch 0), 0, [], []⟩ with _ | st'
    · simp only [hloop] at h
      exact Except.noConfusion h
    · simp only [hloop, Except.ok.injEq] at h
      subst h
      obtain ⟨hchain, hbound, _⟩ :=
        convLoop_progress fir inp.nch _ _ _ _ _ hloop (by simp) (by simp) (by simp)
      refine ⟨?_, ?_, ?_⟩
      · rw [List.chain'_append]
        refine ⟨hchain, List.chain'_singleton _, ?_⟩
        intro x hx y hy
        simp only [List.head?_cons, Option.mem_def, Option.some.injEq] at hy
        subst hy
        exact (hbound x (mem_of_getLast?_mem hx)).2
      · intro p hp
        rcases List.mem_append.mp hp with hp | hp
        · exact hbound p hp
        · simp only [List.mem_singleton] at hp
          subst hp
          norm_num
      · exact List.getLast?_concat _
  · rw [if_pos hsw] at h
    cases h

/-- C8 counterexample: a concrete two-block run reports the progress sequence
`[50, 100, 100]` — percentages, not fractions: the first value is `50`, not
the fraction `1/2`, and the final value is `100.0`, not `1.0`. -/
theorem C8_progress_counterexample :
    overlap_add_convolve_wav ⟨1, 44100, 2, [[100], [200]]⟩ [1, 0] 1 =
        .ok ⟨[[100], [200], [0]], [50, 100, 100]⟩ ∧
      ((50 : ℚ) ≠ 1 / 2 ∧ (100 : ℚ) ≠ 1) := by
  refine ⟨?_, by norm_num⟩
  norm_num [overlap_add_convolve_wav, convLoop, chunkList, chunkListAux, blockY, cyclicConvAt,
    broadcastAdd, clampTrunc, ratTrunc, next_pow2, bitLen, bitLenAux, List.enum, min_def,
    max_def, Int.ceil_neg, List.range_succ]

/-- Witness for C8 amended: the monotone/bounded/final-100 statement at a
concrete successful run. -/
theorem C8_progress_witness :
    (ConvResult.mk [[-32767], [0]] [100, 100]).progress.Chain' (· ≤ ·) ∧
    (∀ p ∈ (ConvResult.mk [[-32767], [0]] [100, 100]).progress, 0 ≤ p ∧ p ≤ 100) ∧
    (ConvResult.mk [[-32767], [0]] [100, 100]).progress.getLast? = some 100 :=
  C8_progress_amended ⟨1, 44100, 2, [[-16384]]⟩ [2, 0] 1 ⟨[[-32767], [0]], [100, 100]⟩
    (by
      norm_num [overlap_add_convolve_wav, convLoop, chunkList, chunkListAux, blockY, cyclicConvAt,
        broadcastAdd, clampTrunc, ratTrunc, next_pow2, bitLen, bitLenAux, List.enum, min_def,
        max_def, Int.ceil_neg, List.range_succ])

/-! ## Claim C5: FIR normalization -/

theorem exp_real_mul_I (x : ℝ) :
    Complex.exp ((x : ℂ) * Complex.I) =
      ((Real.cos x : ℝ) : ℂ) + ((Real.sin x : ℝ) : ℂ) * Complex.I := by
  rw [Complex.exp_mul_I, ← Complex.ofReal_cos, ← Complex.ofReal_sin]

theorem cos_three_pi_div_two : Real.cos (3 * Real.pi / 2) = 0 := by
  rw [show (3 * Real.pi / 2 : ℝ) = Real.pi + Real.pi / 2 by ring, Real.cos_add]
  simp

theorem sin_three_pi_div_two : Real.sin (3 * Real.pi / 2) = -1 := by
  rw [show (3 * Real.pi / 2 : ℝ) = Real.pi + Real.pi / 2 by ring, Real.sin_add]
  simp

theorem cos_three_pi : Real.cos (3 * Real.pi) = -1 := by
  rw [show (3 * Real.pi : ℝ) = Real.pi + 2 * Real.pi by ring, Real.cos_add_two_pi, Real.cos_pi]

theorem sin_three_pi : Real.sin (3 * Real.pi) = 0 := by
  rw [show (3 * Real.pi : ℝ) = Real.pi + 2 * Real.pi by ring, Real.sin_add_two_pi, Real.sin_pi]

theorem cos_nine_pi_div_two : Real.cos (9 * Real.pi / 2) = 0 := by
  rw [show (9 * Real.pi / 2 : ℝ) = Real.pi / 2 + 2 * Real.pi + 2 * Real.pi by ring,
    Real.cos_add_two_pi, Real.cos_add_two_pi, Real.cos_pi_div_two]

theorem sin_nine_pi_div_two : Real.sin (9 * Real.pi / 2) = 1 := by
  rw [show (9 * Real.pi / 2 : ℝ) = Real.pi / 2 + 2 * Real.pi + 2 * Real.pi by ring,
    Real.sin_add_two_pi, Real.sin_add_two_pi, Real.sin_pi_div_two]

/-- The inverse DFT of the all-ones length-4 spectrum is the unit impulse at
index 0. -/
theorem npIfft_ones_four : npIfft [1, 1, 1, 1] = [1, 0, 0, 0] := by
  have e1 : Complex.exp (2 * (Real.pi : ℂ) * Complex.I / 4) = Complex.I := by
    rw [show (2 * (Real.pi : ℂ) * Complex.I / 4) = ((Real.pi / 2 : ℝ) : ℂ) * Complex.I by
      push_cast; ring]
    rw [exp_real_mul_I, Real.cos_pi_div_two, Real.sin_pi_div_two]
    simp
  have e2 : Complex.exp (2 * (Real.pi : ℂ) * Complex.I * 2 / 4) = -1 := by
    rw [show (2 * (Real.pi : ℂ) * Complex.I * 2 / 4) = ((Real.pi : ℝ) : ℂ) * Complex.I by
      ring]
    rw [exp_real_mul_I, Real.cos_pi, Real.sin_pi]
    simp
  have e3 : Complex.exp (2 * (Real.pi : ℂ) * Complex.I * 3 / 4) = -Complex.I := by
    rw [show (2 * (Real.pi : ℂ) * Complex.I * 3 / 4) = ((3 * Real.pi / 2 : ℝ) : ℂ) * Complex.I by
      push_cast; ring]
    rw [exp_real_mul_I, cos_three_pi_div_two, sin_three_pi_div_two]
    simp
  have e22 : Complex.exp (2 * (Real.pi : ℂ) * Complex.I * 2 * 2 / 4) = 1 := by
    rw [show (2 * (Real.pi : ℂ) * Complex.I * 2 * 2 / 4) = ((2 * Real.pi : ℝ) : ℂ) * Complex.I by
      push_cast; ring]
    rw [exp_real_mul_I, Real.cos_two_pi, Real.sin_two_pi]
    simp
  have e32 : Complex.exp (2 * (Real.pi : ℂ) * Complex.I * 3 * 2 / 4) = -1 := by
    rw [show (2 * (Real.pi : ℂ) * Complex.I * 3 * 2 / 4) = ((3 * Real.pi : ℝ) : ℂ) * Complex.I by
      push_cast; ring]
    rw [exp_real_mul_I, cos_three_pi, sin_three_pi]
    simp
  have e23 : Complex.exp (2 * (Real.pi : ℂ) * Complex.I * 2 * 3 / 4) = -1 := by
    rw [show (2 * (Real.pi : ℂ) * Complex.I * 2 * 3 / 4) = ((3 * Real.pi : ℝ) : ℂ) * Complex.I by
      push_cast; ring]
    rw [exp_real_mul_I, cos_three_pi, sin_three_pi]
    simp
  have e33 : Complex.exp (2 * (Real.pi : ℂ) * Complex.I * 3 * 3 / 4) = Complex.I := by
    rw [show (2 * (Real.pi : ℂ) * Complex.I * 3 * 3 / 4) =
        ((9 * Real.pi / 2 : ℝ) : ℂ) * Complex.I by
      push_cast; ring]
    rw [exp_real_mul_I, cos_nine_pi_div_two, sin_nine_pi_div_two]
    simp
  rw [npIfft]
  norm_num [List.enum, show List.range 4 = [0, 1, 2, 3] from by decide, e1, e2, e3, e22, e32,
    e23, e33]

/-- With no bands, a 4-tap design windows the unit impulse with a Hann window
that is zero at index 0, so every windowed sample vanishes. -/
theorem firWindowed_empty_four (fs : ℝ) : firWindowed [] fs 4 = [0, 0, 0, 0] := by
  rw [firWindowed]
  have hn : evenTaps 4 = 4 := by rw [evenTaps]; norm_num
  rw [hn]
  have hlin : linspace 0 (fs / 2) (4 / 2 + 1) = [0 + (fs / 2 - 0) * (0 : ℕ) / (3 - 1),
      0 + (fs / 2 - 0) * (1 : ℕ) / (3 - 1), 0 + (fs / 2 - 0) * (2 : ℕ) / (3 - 1)] := by
    rw [linspace, if_neg (by norm_num)]
    norm_num [show List.range 3 = [0, 1, 2] from by decide]
  rw [hlin]
  have hresp : ∀ f : ℝ, compute_total_response [] f fs = 1 := fun _ => rfl
  simp only [List.map_cons, List.map_nil, hresp]
  have hmirror : hermitianMirror [1, 1, 1] = [1, 1, 1, 1] := by
    rw [hermitianMirror]
    norm_num
  rw [hmirror, npIfft_ones_four]
  simp only [List.map_cons, List.map_nil, Complex.one_re, Complex.zero_re]
  rw [show ([(1 : ℝ), 0, 0, 0]).length = 4 from by norm_num]
  rw [hanning, if_neg (by norm_num), show List.range 4 = [0, 1, 2, 3] from by decide]
  simp only [List.map_cons, List.map_nil, List.zipWith_cons_cons, List.zipWith_nil_right]
  norm_num

theorem sum_map_div (l : List ℝ) (s : ℝ) : (l.map (· / s)).sum = l.sum / s := by
  induction l with
  | nil => simp
  | cons a l ih => simp [ih, add_div]

theorem hanning_length (M : ℕ) : (hanning M).length = M := by
  rw [hanning]
  split_ifs <;> simp

theorem linspace_length (a b : ℝ) (num : ℕ) (h : 2 ≤ num) : (linspace a b num).length = num := by
  rw [linspace, if_neg (by omega)]
  simp

theorem evenTaps_even (n_taps : ℕ) : evenTaps n_taps % 2 = 0 := by
  rw [evenTaps]
  split_ifs with h
  · omega
  · omega

theorem evenTaps_ge (n_taps : ℕ) (h : 1 ≤ n_taps) : 2 ≤ evenTaps n_taps := by
  rw [evenTaps]
  split_ifs with hodd
  · omega
  · omega

theorem npIfft_length (v : List ℂ) : (npIfft v).length = v.length := by
  rw [npIfft]
  simp

theorem hermitianMirror_length (hpos : List ℂ) :
    (hermitianMirror hpos).length = hpos.length + (hpos.length - 1 - 1) := by
  rw [hermitianMirror]
  simp only [List.length_append, List.length_map, List.length_reverse, List.length_drop,
    List.length_take]
  omega

/-- For at least one requested tap, the windowed pre-normalization vector has
exactly `evenTaps n_taps` entries. -/
theorem firWindowed_length (bands : List Band) (fs : ℝ) (n_taps : ℕ) (h : 1 ≤ n_taps) :
    (firWindowed bands fs n_taps).length = evenTaps n_taps := by
  have h2 : 2 ≤ evenTaps n_taps := evenTaps_ge n_taps h
  have heven : evenTaps n_taps % 2 = 0 := evenTaps_even n_taps
  simp only [firWindowed]
  rw [List.length_zipWith, hanning_length, min_self, List.length_map, npIfft_length,
    hermitianMirror_length, List.length_map,
    linspace_length 0 (fs / 2) (evenTaps n_taps / 2 + 1) (by omega)]
  omega

/-- C5 counterexample: designing a 4-tap FIR from the empty band chain yields
the all-zero coefficient vector (the Hann window kills the unit impulse at
index 0 and normalization is skipped on the zero sum): the coefficients sum
to 0, not to `1.0 ± 1e-6`. -/
theorem C5_normalization_counterexample :
    (design_linear_phase_fir [] 44100 4).sum = 0 ∧
    ¬ |(design_linear_phase_fir [] 44100 4).sum - 1| ≤ 1e-6 := by
  have hd : design_linear_phase_fir [] 44100 4 = [0, 0, 0, 0] := by
    norm_num [design_linear_phase_fir, firWindowed_empty_four, evenTaps]
  rw [hd]
  norm_num

/-- C5 amended: whenever the pre-normalization windowed sum exceeds `1e-12`
in magnitude, the designed coefficients sum to exactly 1; otherwise
normalization is skipped and the windowed coefficients are returned
unchanged.  The empty band chain, however, lands in the degenerate branch
(see the counterexample), so it does not sum to 1. -/
theorem C5_normalization_amended (bands : List Band) (fs : ℝ) (n_taps : ℕ) (h : 1 ≤ n_taps) :
    (1e-12 < |(firWindowed bands fs n_taps).sum| →
      (design_linear_phase_fir bands fs n_taps).sum = 1) ∧
    (¬ 1e-12 < |(firWindowed bands fs n_taps).sum| →
      design_linear_phase_fir bands fs n_taps = firWindowed bands fs n_taps) := by
  have hlen := firWindowed_length bands fs n_taps h
  constructor
  · intro hs
    simp only [design_linear_phase_fir]
    rw [if_pos hs, List.take_of_length_le (by rw [List.length_map, hlen]), sum_map_div]
    have hne : (firWindowed bands fs n_taps).sum ≠ 0 := by
      intro h0
      rw [h0] at hs
      norm_num at hs
    exact div_self hne
  · intro hs
    simp only [design_linear_phase_fir]
    rw [if_neg hs, List.take_of_length_le (le_of_eq hlen)]

/-- Witness for C5 amended: the empty chain at 4 taps hits the degenerate
branch and returns the (all-zero) windowed vector unchanged. -/
theorem C5_normalization_witness :
    design_linear_phase_fir [] 44100 4 = firWindowed [] 44100 4 :=
  (C5_normalization_amended [] 44100 4 (by norm_num)).2
    (by rw [firWindowed_empty_four]; norm_num)

end UMC
